import Mathlib

/-!
Verification of the helper-function library `ffn/utils.py`.

Python strings are modelled as lists of characters (`PyStr`); Python
floats as exact rationals extended with a not-a-number marker
(`PyFloat`); Python exceptions as `Except` / `Option` results.  Each
definition below shallow-embeds the corresponding function of the
source file.
-/

/-- Model of a Python `str`: a list of characters. -/
abbrev PyStr := List Char

/-- The ASCII whitespace characters stripped by Python `str.strip()`. -/
def isPySpace (c : Char) : Bool :=
  c = ' ' || c = '\t' || c = '\n' || c = '\r' || c = '\x0b' || c = '\x0c'

/-- Model of Python `str.strip()`: drop whitespace from both ends
(drop from the front, then drop from the reversed remainder). -/
def pyStrip (s : PyStr) : PyStr :=
  (((s.dropWhile isPySpace).reverse.dropWhile isPySpace)).reverse

/-- Model of Python `str.split(sep)` for a one-character separator:
`"a,b".split(",") == ["a","b"]`, `"".split(",") == [""]`. -/
def pySplitChar (sep : Char) : PyStr → List PyStr
  | [] => [[]]
  | c :: rest =>
    if c = sep then [] :: pySplitChar sep rest
    else
      match pySplitChar sep rest with
      | [] => [[c]]
      | p :: ps => (c :: p) :: ps

/-- The argument accepted by `parse_arg`: either a single string or an
ordered sequence of strings (Python `list`/`tuple`). -/
inductive Arg where
  | str (s : PyStr)
  | seq (l : List PyStr)
deriving DecidableEq

/-- Embedding of `parse_arg` (src/ffn/utils.py): a string is stripped;
if it contains a comma it is split on commas and each piece stripped,
otherwise it becomes a one-element list; a sequence passes through. -/
def parse_arg : Arg → List PyStr
  | .seq l => l
  | .str s =>
    let s := pyStrip s
    if ',' ∈ s then (pySplitChar ',' s).map pyStrip
    else [s]

/-- Model of Python ASCII `str.lower()` on one character. -/
def asciiLower (c : Char) : Char :=
  if 65 ≤ c.toNat ∧ c.toNat ≤ 90 then Char.ofNat (c.toNat + 32) else c

/-- Model of Python ASCII `str.upper()` on one character. -/
def asciiUpper (c : Char) : Char :=
  if 97 ≤ c.toNat ∧ c.toNat ≤ 122 then Char.ofNat (c.toNat - 32) else c

/-- A regex word character (`\w`) in the ASCII model: letter, digit or
underscore. -/
def isWordChar (c : Char) : Bool :=
  c.isAlpha || c.isDigit || c = '_'

/-- Embedding of `clean_ticker` (src/ffn/utils.py): keep the part of the
ticker before the first space (`ticker.split(" ")[0]`), delete every
character matched by the regex `[\W_]+` (i.e. keep a character exactly
when it is a word character other than the underscore), and lowercase
the result. -/
def clean_ticker (ticker : PyStr) : PyStr :=
  (((ticker.takeWhile (fun c => c ≠ ' ')).filter
      (fun c => isWordChar c && !(c = '_'))).map asciiLower)

/-- Embedding of `clean_tickers` (src/ffn/utils.py): map `clean_ticker`
over a sequence. -/
def clean_tickers (tickers : List PyStr) : List PyStr :=
  tickers.map clean_ticker

/-- Model of a Python `float`: an exact rational, or the not-a-number
marker recognised by `np.isnan`. -/
inductive PyFloat where
  | nan
  | val (q : ℚ)
deriving DecidableEq

/-- Round-half-to-even to the nearest integer, the rounding used by
Python's fixed-point `format`. -/
def roundHalfEven (q : ℚ) : ℤ :=
  let f := q.floor
  if q - f < 1 / 2 then f
  else if 1 / 2 < q - f then f + 1
  else if f % 2 = 0 then f else f + 1

/-- Render `n / 100` with exactly two decimal digits (the digits of
`format(x, ".2f")` once `x * 100` has been rounded to the integer `n`). -/
def decimal2String (n : ℤ) : String :=
  let sign := if n < 0 then "-" else ""
  let a := n.natAbs
  sign ++ Nat.repr (a / 100) ++ "." ++
    (if a % 100 < 10 then "0" else "") ++ Nat.repr (a % 100)

/-- Model of Python `format(q, ".2f")` on a non-NaN value. -/
def fmt2f (q : ℚ) : String :=
  decimal2String (roundHalfEven (q * 100))

/-- Embedding of `fmtp` (src/ffn/utils.py): `"-"` for NaN, otherwise
`format(number, ".2%")` (the value times 100, two decimals, `%`). -/
def fmtp : PyFloat → String
  | .nan => "-"
  | .val q => fmt2f (q * 100) ++ "%"

/-- Embedding of `fmtpn` (src/ffn/utils.py): `"-"` for NaN, otherwise
`format(number * 100, ".2f")`. -/
def fmtpn : PyFloat → String
  | .nan => "-"
  | .val q => fmt2f (q * 100)

/-- Embedding of `fmtn` (src/ffn/utils.py): `"-"` for NaN, otherwise
`format(number, ".2f")`. -/
def fmtn : PyFloat → String
  | .nan => "-"
  | .val q => fmt2f q

/-- Model of Python ASCII `str.upper()` on a whole string. -/
def pyUpperStr (s : String) : String :=
  String.mk (s.data.map asciiUpper)

/-- The static period table of `get_freq_name` (src/ffn/utils.py). -/
def freqPeriods : List (String × String) :=
  [("B", "business day"), ("C", "custom business day"), ("D", "daily"),
   ("W", "weekly"), ("M", "monthly"), ("BM", "business month end"),
   ("CBM", "custom business month end"), ("MS", "month start"),
   ("BMS", "business month start"), ("CBMS", "custom business month start"),
   ("Q", "quarterly"), ("BQ", "business quarter end"), ("QS", "quarter start"),
   ("BQS", "business quarter start"), ("Y", "yearly"), ("A", "yearly"),
   ("BA", "business year end"), ("AS", "year start"),
   ("BAS", "business year start"), ("H", "hourly"), ("T", "minutely"),
   ("S", "secondly"), ("L", "milliseonds"), ("U", "microseconds")]

/-- Embedding of `get_freq_name` (src/ffn/utils.py): uppercase the code
and look it up in the static table; `none` models Python's `None`. -/
def get_freq_name (period : String) : Option String :=
  freqPeriods.lookup (pyUpperStr period)

/-- Python float division: raises `ZeroDivisionError` (modelled as
`none`) when the divisor is zero. -/
def pyDivide (a b : ℚ) : Option ℚ :=
  if b = 0 then none else some (a / b)

/-- Embedding of `scale` (src/ffn/utils.py): clip below / above the
source range to the destination bounds, otherwise map linearly; the
division models Python's zero-division failure with `none`. -/
def scale (val : ℚ) (src dst : ℚ × ℚ) : Option ℚ :=
  if val < src.1 then some dst.1
  else if src.2 < val then some dst.2
  else (pyDivide (val - src.1) (src.2 - src.1)).map
    (fun r => r * (dst.2 - dst.1) + dst.1)

/-- A pandas object as `as_format` sees it: a labelled one-dimensional
series, a labelled two-dimensional frame, or anything else (any Python
value failing both `isinstance` checks). -/
inductive PdItem (L α : Type) where
  | series (labels : List L) (data : List α)
  | frame (rowLabels colLabels : List L) (data : List (List α))
  | other
deriving DecidableEq

/-- Embedding of `as_format` (src/ffn/utils.py): map the format string
(modelled as the element formatter `fmt`) over a Series or DataFrame,
preserving labels; any other input falls through both `isinstance`
branches and Python implicitly returns `None`. -/
def as_format {L α : Type} (item : PdItem L α) (fmt : α → String) :
    Option (PdItem L String) :=
  match item with
  | .series labels d => some (.series labels (d.map fmt))
  | .frame rl cl d => some (.frame rl cl (d.map (fun row => row.map fmt)))
  | .other => none

/-- The exceptions that can leave `_memoize`: the positional-index
access failing, `pickle.dumps` failing, or the wrapped function raising
its own exception `e`. -/
inductive MemoErr (E : Type) where
  | indexError
  | serializeError
  | funcError (e : E)
deriving DecidableEq

/-- A wrapped function as `_memoize` sees it: its declared parameter
names (`func.__code__.co_varnames`), the designated refresh keyword
(`func.mrefresh_keyword`), and its body, which may raise. -/
structure MemoFunc (V R E : Type) where
  varnames : List String
  mrefresh_keyword : String
  call : List V → List (String × V) → Except E R

/-- Embedding of the refresh detection of `_memoize`
(src/ffn/utils.py): if the refresh keyword is among the declared
parameter names, the positional argument at its index is tested for
truthiness (an out-of-range index raises, modelled as `.error ()`);
if that did not set the flag, a keyword argument under the refresh
keyword is tested for truthiness. -/
def computeRefresh {V : Type} (truthy : V → Bool) (varnames : List String)
    (refreshKw : String) (args : List V) (kw : List (String × V)) :
    Except Unit Bool :=
  let posRefresh : Except Unit Bool :=
    if refreshKw ∈ varnames then
      match args.get? (varnames.indexOf refreshKw) with
      | some v => .ok (truthy v)
      | none => .error ()
    else .ok false
  match posRefresh with
  | .error e => .error e
  | .ok true => .ok true
  | .ok false =>
    match kw.lookup refreshKw with
    | some v => .ok (truthy v)
    | none => .ok false

/-- Embedding of `_memoize` (src/ffn/utils.py) as one call step.
`truthy` models Python truthiness, `ser` models
`pickle.dumps(args, 1) + pickle.dumps(kw, 1)` (`none` = not
serializable), and `cache` is `func.mcache` as an association list.
Returns the call's outcome, the cache afterwards, and whether the
wrapped function's body was invoked. -/
def memoizeCall {V R E K : Type} [DecidableEq K] (truthy : V → Bool)
    (ser : List V → List (String × V) → Option K)
    (f : MemoFunc V R E) (cache : List (K × R))
    (args : List V) (kw : List (String × V)) :
    Except (MemoErr E) R × List (K × R) × Bool :=
  match computeRefresh truthy f.varnames f.mrefresh_keyword args kw with
  | .error _ => (.error .indexError, cache, false)
  | .ok refresh =>
    match ser args kw with
    | none => (.error .serializeError, cache, false)
    | some key =>
      match cache.lookup key, refresh with
      | some r, false => (.ok r, cache, false)
      | _, _ =>
        match f.call args kw with
        | .error e => (.error (.funcError e), cache, true)
        | .ok r => (.ok r, (key, r) :: cache, true)

/-- Append a character to the last piece of a list of pieces: the
effect one trailing non-separator character has on `pySplitChar`
(used to analyse how `strip` interacts with `split`). -/
def appendLast (c : Char) : List PyStr → List PyStr
  | [] => [[c]]
  | [x] => [x ++ [c]]
  | x :: y :: ys => x :: appendLast c (y :: ys)

/-! ## Helper lemmas -/

theorem charToNat_ofNat (n : ℕ) (h : n < 55296) : (Char.ofNat n).toNat = n := by
  have hv : n.isValidChar := Or.inl h
  simp [Char.ofNat, hv, Char.ofNatAux, Char.toNat, UInt32.ofNat', UInt32.toNat,
    BitVec.toNat_ofNatLt]

theorem asciiUpper_idem (c : Char) : asciiUpper (asciiUpper c) = asciiUpper c := by
  by_cases h : 97 ≤ c.toNat ∧ c.toNat ≤ 122
  · have h1 : asciiUpper c = Char.ofNat (c.toNat - 32) := by
      unfold asciiUpper; rw [if_pos h]
    have h2 : (Char.ofNat (c.toNat - 32)).toNat = c.toNat - 32 :=
      charToNat_ofNat _ (by omega)
    rw [h1]
    unfold asciiUpper
    rw [h2, if_neg (by omega)]
  · have h1 : asciiUpper c = c := by unfold asciiUpper; rw [if_neg h]
    rw [h1, h1]

theorem map_asciiUpper_idem (l : List Char) :
    l.map (fun c => asciiUpper (asciiUpper c)) = l.map asciiUpper := by
  induction l with
  | nil => rfl
  | cons a t ih => simp only [List.map_cons, asciiUpper_idem, ih]

theorem pyUpperStr_idem (s : String) : pyUpperStr (pyUpperStr s) = pyUpperStr s := by
  unfold pyUpperStr
  simp only [List.map_map]
  congr 1
  exact map_asciiUpper_idem s.data

theorem pySplit_ne_nil (sep : Char) (s : PyStr) : pySplitChar sep s ≠ [] := by
  induction s with
  | nil => simp [pySplitChar]
  | cons c rest ih =>
    by_cases h : c = sep
    · simp [pySplitChar, h]
    · simp only [pySplitChar, if_neg h]
      cases hr : pySplitChar sep rest with
      | nil => exact absurd hr ih
      | cons p ps => simp

theorem pyStrip_cons_space {c : Char} (h : isPySpace c) (p : PyStr) :
    pyStrip (c :: p) = pyStrip p := by
  simp [pyStrip, List.dropWhile_cons, h]

theorem dropWhile_append_eff (q : Char → Bool) (xs ys : List Char) :
    (xs ++ ys).dropWhile q =
      if (xs.dropWhile q).isEmpty then ys.dropWhile q else xs.dropWhile q ++ ys := by
  induction xs with
  | nil => simp
  | cons a t ih =>
    by_cases h : q a
    · simp [List.dropWhile_cons, h, ih]
    · simp [List.dropWhile_cons, h]

theorem pyStrip_append_space {c : Char} (h : isPySpace c) (p : PyStr) :
    pyStrip (p ++ [c]) = pyStrip p := by
  unfold pyStrip
  rw [dropWhile_append_eff]
  by_cases he : (p.dropWhile isPySpace).isEmpty
  · simp [he, List.dropWhile_cons, h]
    cases hd : p.dropWhile isPySpace with
    | nil => simp
    | cons a t => rw [hd] at he; simp at he
  · rw [if_neg he]
    rw [List.reverse_append]
    simp only [List.reverse_cons, List.reverse_nil, List.nil_append,
      List.singleton_append, List.dropWhile_cons, h]
    rfl

theorem appendLast_cons (c : Char) (x : PyStr) (l : List PyStr) (h : l ≠ []) :
    appendLast c (x :: l) = x :: appendLast c l := by
  cases l with
  | nil => exact absurd rfl h
  | cons y ys => rfl

theorem pySplit_cons_sep {sep a : Char} (h : a = sep) (l : PyStr) :
    pySplitChar sep (a :: l) = [] :: pySplitChar sep l := by
  simp [pySplitChar, h]

theorem pySplit_cons_ne {sep a : Char} (h : ¬ a = sep) {l p : PyStr}
    {ps : List PyStr} (hl : pySplitChar sep l = p :: ps) :
    pySplitChar sep (a :: l) = (a :: p) :: ps := by
  simp [pySplitChar, h, hl]

theorem pySplit_append_single (sep c : Char) (t : PyStr) :
    pySplitChar sep (t ++ [c]) =
      if c = sep then pySplitChar sep t ++ [[]]
      else appendLast c (pySplitChar sep t) := by
  induction t with
  | nil =>
    by_cases h : c = sep <;> simp [pySplitChar, h, appendLast]
  | cons a t' ih =>
    rw [List.cons_append]
    by_cases ha : a = sep
    · rw [pySplit_cons_sep ha, ih, pySplit_cons_sep ha]
      by_cases h : c = sep
      · rw [if_pos h, if_pos h, List.cons_append]
      · rw [if_neg h, if_neg h,
          appendLast_cons c [] (pySplitChar sep t') (pySplit_ne_nil sep t')]
    · cases ht : pySplitChar sep t' with
      | nil => exact absurd ht (pySplit_ne_nil sep t')
      | cons p ps =>
        by_cases h : c = sep
        · have hsplit : pySplitChar sep (t' ++ [c]) = p :: (ps ++ [[]]) := by
            rw [ih, if_pos h, ht, List.cons_append]
          rw [pySplit_cons_ne ha hsplit, if_pos h, pySplit_cons_ne ha ht,
            List.cons_append]
        · cases ps with
          | nil =>
            have hsplit : pySplitChar sep (t' ++ [c]) = (p ++ [c]) :: [] := by
              rw [ih, if_neg h, ht]; rfl
            rw [pySplit_cons_ne ha hsplit, if_neg h, pySplit_cons_ne ha ht]
            simp [appendLast]
          | cons q qs =>
            have hsplit : pySplitChar sep (t' ++ [c]) =
                p :: appendLast c (q :: qs) := by
              rw [ih, if_neg h, ht, appendLast_cons c p (q :: qs) (by simp)]
            rw [pySplit_cons_ne ha hsplit, if_neg h, pySplit_cons_ne ha ht,
              appendLast_cons c (a :: p) (q :: qs) (by simp)]

theorem isPySpace_ne_comma {c : Char} (h : isPySpace c) : ¬ c = ',' := by
  intro he
  subst he
  exact absurd h (by decide)

theorem map_pyStrip_appendLast {c : Char} (h : isPySpace c) :
    ∀ l : List PyStr, l ≠ [] → (appendLast c l).map pyStrip = l.map pyStrip
  | [], hl => absurd rfl hl
  | [x], _ => by simp [appendLast, pyStrip_append_space h]
  | x :: y :: ys, _ => by
    rw [appendLast_cons c x (y :: ys) (by simp), List.map_cons, List.map_cons,
      map_pyStrip_appendLast h (y :: ys) (by simp)]

theorem lstrip_split_map (s : PyStr) :
    (pySplitChar ',' (s.dropWhile isPySpace)).map pyStrip =
      (pySplitChar ',' s).map pyStrip := by
  induction s with
  | nil => rfl
  | cons c s' ih =>
    by_cases hc : isPySpace c
    · rw [List.dropWhile_cons, if_pos hc, ih]
      cases ht : pySplitChar ',' s' with
      | nil => exact absurd ht (pySplit_ne_nil ',' s')
      | cons p ps =>
        rw [pySplit_cons_ne (isPySpace_ne_comma hc) ht, List.map_cons,
          List.map_cons, pyStrip_cons_space hc]
    · rw [List.dropWhile_cons, if_neg hc]

theorem rstrip_split_map (s : PyStr) :
    (pySplitChar ',' ((s.reverse.dropWhile isPySpace).reverse)).map pyStrip =
      (pySplitChar ',' s).map pyStrip := by
  induction s using List.reverseRecOn with
  | nil => rfl
  | append_singleton t c ih =>
    by_cases hc : isPySpace c
    · rw [List.reverse_append, List.reverse_cons, List.reverse_nil,
        List.nil_append, List.singleton_append, List.dropWhile_cons, if_pos hc,
        ih, pySplit_append_single, if_neg (isPySpace_ne_comma hc),
        map_pyStrip_appendLast hc (pySplitChar ',' t) (pySplit_ne_nil ',' t)]
    · rw [List.reverse_append, List.reverse_cons, List.reverse_nil,
        List.nil_append, List.singleton_append, List.dropWhile_cons, if_neg hc,
        List.reverse_cons, List.reverse_reverse]

theorem strip_split_map (s : PyStr) :
    (pySplitChar ',' (pyStrip s)).map pyStrip =
      (pySplitChar ',' s).map pyStrip := by
  have h : pyStrip s = ((s.dropWhile isPySpace).reverse.dropWhile isPySpace).reverse := rfl
  rw [h, rstrip_split_map (s.dropWhile isPySpace), lstrip_split_map s]

theorem mem_dropWhile_of_mem {a : Char} {q : Char → Bool} :
    ∀ {l : PyStr}, a ∈ l → q a = false → a ∈ l.dropWhile q
  | [], h, _ => absurd h (by simp)
  | b :: t, h, ha => by
    by_cases hb : q b
    · rw [List.dropWhile_cons, if_pos hb]
      rcases List.mem_cons.mp h with he | ht
      · subst he; rw [hb] at ha; exact absurd ha (by simp)
      · exact mem_dropWhile_of_mem ht ha
    · rw [List.dropWhile_cons, if_neg hb]; exact h

theorem lookup_eq_none_of_not_mem_keys {β : Type} (a : String) :
    ∀ l : List (String × β), a ∉ l.map Prod.fst → List.lookup a l = none
  | [], _ => rfl
  | (k, v) :: t, h => by
    rw [List.map_cons] at h
    have hk : (a == k) = false := by
      have hne : ¬ a = k := fun he => h (by rw [he]; exact List.mem_cons_self _ _)
      simp [hne]
    simp only [List.lookup, hk]
    exact lookup_eq_none_of_not_mem_keys a t (fun hm => h (List.mem_cons_of_mem _ hm))

theorem comma_mem_pyStrip (s : PyStr) : ',' ∈ pyStrip s ↔ ',' ∈ s := by
  constructor
  · intro h
    unfold pyStrip at h
    rw [List.mem_reverse] at h
    have h1 := (List.dropWhile_sublist _).mem h
    rw [List.mem_reverse] at h1
    exact (List.dropWhile_sublist _).mem h1
  · intro h
    unfold pyStrip
    rw [List.mem_reverse]
    apply mem_dropWhile_of_mem _ (by decide)
    rw [List.mem_reverse]
    exact mem_dropWhile_of_mem h (by decide)

/-! ## Claim theorems -/

/-- Claim C1: for the memoizing wrapper, two calls with identical
positional and keyword arguments and no truthy refresh flag invoke the
underlying function only once (the first call invokes and stores, the
second call does not invoke and returns the cached result unchanged);
and any call whose refresh flag — found positionally in the declared
parameter order or as a keyword — is truthy always invokes the
underlying function and stores the fresh result in the cache. -/
theorem memoize_cache_once_and_refresh {V R E K : Type} [DecidableEq K]
    (truthy : V → Bool) (ser : List V → List (String × V) → Option K)
    (f : MemoFunc V R E) (cache : List (K × R)) (args : List V)
    (kw : List (String × V)) (key : K) (r : R)
    (hser : ser args kw = some key) (hcall : f.call args kw = Except.ok r) :
    (computeRefresh truthy f.varnames f.mrefresh_keyword args kw = .ok false →
      cache.lookup key = none →
      memoizeCall truthy ser f cache args kw = (.ok r, (key, r) :: cache, true) ∧
      memoizeCall truthy ser f ((key, r) :: cache) args kw =
        (.ok r, (key, r) :: cache, false)) ∧
    (computeRefresh truthy f.varnames f.mrefresh_keyword args kw = .ok true →
      memoizeCall truthy ser f cache args kw = (.ok r, (key, r) :: cache, true)) := by
  constructor
  · intro hrf hmiss
    constructor
    · simp only [memoizeCall, hrf, hser, hmiss, hcall]
    · have hhit : List.lookup key ((key, r) :: cache) = some r := by
        simp [List.lookup]
      simp only [memoizeCall, hrf, hser, hhit]
  · intro hrf
    simp only [memoizeCall, hrf, hser, hcall]
    cases hl : List.lookup key cache <;> simp only [hl]

/-- Witness for C1: a function of parameters `(x, mrefresh)` whose body
returns `42`; calling it on `(5, 0)` twice invokes once and then hits
the cache, and calling it on `(5, 1)` (truthy refresh) re-invokes and
overwrites the stale cached `7`. -/
theorem memoize_cache_once_and_refresh_witness :
    (memoizeCall (V := ℕ) (R := ℕ) (E := Unit) (K := ℕ)
        (fun v => v != 0) (fun _ _ => some 0)
        ⟨["x", "mrefresh"], "mrefresh", fun _ _ => Except.ok 42⟩
        [] [5, 0] [] =
      (.ok 42, [(0, 42)], true)) ∧
    (memoizeCall (V := ℕ) (R := ℕ) (E := Unit) (K := ℕ)
        (fun v => v != 0) (fun _ _ => some 0)
        ⟨["x", "mrefresh"], "mrefresh", fun _ _ => Except.ok 42⟩
        [(0, 42)] [5, 0] [] =
      (.ok 42, [(0, 42)], false)) ∧
    (memoizeCall (V := ℕ) (R := ℕ) (E := Unit) (K := ℕ)
        (fun v => v != 0) (fun _ _ => some 0)
        ⟨["x", "mrefresh"], "mrefresh", fun _ _ => Except.ok 42⟩
        [(0, 7)] [5, 1] [] =
      (.ok 42, [(0, 42), (0, 7)], true)) := by
  have h1 := (memoize_cache_once_and_refresh (V := ℕ) (R := ℕ) (E := Unit) (K := ℕ)
    (fun v => v != 0) (fun _ _ => some 0)
    ⟨["x", "mrefresh"], "mrefresh", fun _ _ => Except.ok 42⟩
    [] [5, 0] [] 0 42 rfl rfl).1 rfl rfl
  have h2 := (memoize_cache_once_and_refresh (V := ℕ) (R := ℕ) (E := Unit) (K := ℕ)
    (fun v => v != 0) (fun _ _ => some 0)
    ⟨["x", "mrefresh"], "mrefresh", fun _ _ => Except.ok 42⟩
    [(0, 7)] [5, 1] [] 0 42 rfl rfl).2 rfl
  exact ⟨h1.1, h1.2, h2⟩

/-- Claim C2: if the underlying function raises during a memoized call
the exception propagates and the cache is left unchanged (no entry
stored); and if the arguments cannot be serialized for the cache key, a
serialization error is raised immediately, nothing is cached, and the
underlying function is never invoked. -/
theorem memoize_error_propagation {V R E K : Type} [DecidableEq K]
    (truthy : V → Bool) (ser : List V → List (String × V) → Option K)
    (f : MemoFunc V R E) (cache : List (K × R)) (args : List V)
    (kw : List (String × V)) (rf : Bool)
    (hrf : computeRefresh truthy f.varnames f.mrefresh_keyword args kw = .ok rf) :
    (∀ (key : K) (e : E), ser args kw = some key →
      (cache.lookup key = none ∨ rf = true) →
      f.call args kw = Except.error e →
      memoizeCall truthy ser f cache args kw =
        (.error (.funcError e), cache, true)) ∧
    (ser args kw = none →
      memoizeCall truthy ser f cache args kw =
        (.error .serializeError, cache, false)) := by
  constructor
  · intro key e hser hinv hcall
    rcases hinv with hmiss | htrue
    · simp only [memoizeCall, hrf, hser, hmiss, hcall]
    · subst htrue
      simp only [memoizeCall, hrf, hser, hcall]
      cases hl : List.lookup key cache <;> simp only [hl]
  · intro hser
    simp only [memoizeCall, hrf, hser]

/-- Witness for C2: a body raising `"boom"` propagates the error with
the cache untouched, and an unserializable argument raises a
serialization error without invoking the body. -/
theorem memoize_error_propagation_witness :
    (memoizeCall (V := ℕ) (R := ℕ) (E := String) (K := ℕ)
        (fun v => v != 0) (fun _ _ => some 0)
        ⟨["x"], "mrefresh", fun _ _ => Except.error "boom"⟩
        [] [1] [] =
      (.error (.funcError "boom"), [], true)) ∧
    (memoizeCall (V := ℕ) (R := ℕ) (E := String) (K := ℕ)
        (fun v => v != 0) (fun _ _ => none)
        ⟨["x"], "mrefresh", fun _ _ => Except.ok 42⟩
        [] [1] [] =
      (.error .serializeError, [], false)) := by
  constructor
  · exact (memoize_error_propagation (V := ℕ) (R := ℕ) (E := String) (K := ℕ)
      (fun v => v != 0) (fun _ _ => some 0)
      ⟨["x"], "mrefresh", fun _ _ => Except.error "boom"⟩ [] [1] [] false
      rfl).1 0 "boom" rfl (Or.inl rfl) rfl
  · exact (memoize_error_propagation (V := ℕ) (R := ℕ) (E := String) (K := ℕ)
      (fun v => v != 0) (fun _ _ => none)
      ⟨["x"], "mrefresh", fun _ _ => Except.ok 42⟩ [] [1] [] false
      rfl).2 rfl

/-- Counterexample to claim C3 as stated: for the comma-free string
`" a "` the claim predicts the one-element list `[" a "]` containing
that very string, but `parse_arg` strips the string first and returns
`["a"]`. -/
theorem parse_arg_untrimmed_false :
    parse_arg (.str (" a ".toList)) ≠ [" a ".toList] ∧
    parse_arg (.str (" a ".toList)) = ["a".toList] := by decide

/-- Claim C3 (amended): for every string containing a comma the result
is the list of comma-separated pieces each trimmed of surrounding
whitespace; for every string without a comma the result is a
one-element list containing that string trimmed of surrounding
whitespace; a sequence input is returned unchanged; and the three
examples of the claim hold. -/
theorem parse_arg_spec (s : PyStr) (l : List PyStr) :
    (',' ∈ s → parse_arg (.str s) = (pySplitChar ',' s).map pyStrip) ∧
    (',' ∉ s → parse_arg (.str s) = [pyStrip s]) ∧
    parse_arg (.seq l) = l ∧
    parse_arg (.str ("a,b,c".toList)) = ["a".toList, "b".toList, "c".toList] ∧
    parse_arg (.str ("a".toList)) = ["a".toList] ∧
    parse_arg (.seq ["x".toList, "y".toList]) = ["x".toList, "y".toList] := by
  refine ⟨?_, ?_, rfl, by decide, by decide, by decide⟩
  · intro h
    have h1 : ',' ∈ pyStrip s := (comma_mem_pyStrip s).mpr h
    simp only [parse_arg]
    rw [if_pos h1]
    exact strip_split_map s
  · intro h
    have h1 : ',' ∉ pyStrip s := fun hc => h ((comma_mem_pyStrip s).mp hc)
    simp only [parse_arg]
    rw [if_neg h1]

/-- Counterexample to claim C4 as stated: the claim says underscores
are kept, predicting `clean_ticker("A_B") == "a_b"`, but the regex
`[\W_]+` also removes underscores, so the code returns `"ab"`. -/
theorem clean_ticker_keeps_underscore_false :
    clean_ticker ("A_B".toList) = "ab".toList ∧
    clean_ticker ("A_B".toList) ≠ "a_b".toList := by decide

/-- Claim C4 (amended): `clean_ticker` is total and, for every input,
takes the substring before the first space, keeps exactly the letters
and digits (underscores are removed too, since the pattern `[\W_]+`
strips both non-word characters and underscores), and lowercases the
result; the claim's examples hold and empty input yields the empty
string. -/
theorem clean_ticker_spec (t : PyStr) :
    clean_ticker t =
      ((t.takeWhile (fun c => c ≠ ' ')).filter
        (fun c => c.isAlpha || c.isDigit)).map asciiLower ∧
    clean_ticker ("^VIX".toList) = "vix".toList ∧
    clean_ticker ("SPX Index".toList) = "spx".toList ∧
    clean_ticker ([] : PyStr) = [] := by
  have hpt : ∀ c : Char, (isWordChar c && !(c = '_')) = (c.isAlpha || c.isDigit) := by
    intro c
    by_cases h : c = '_'
    · subst h; decide
    · simp [isWordChar, h]
  refine ⟨?_, by decide, by decide, rfl⟩
  unfold clean_ticker
  simp only [hpt]

/-- Claim C5: each of the three numeric formatters returns exactly the
string `"-"` on a not-a-number input; NaN is handled, not an error. -/
theorem fmt_nan_dash : fmtp .nan = "-" ∧ fmtpn .nan = "-" ∧ fmtn .nan = "-" :=
  ⟨rfl, rfl, rfl⟩

/-- Claim C6: `get_freq_name` is pure, total and case-insensitive: a
lookup equals the lookup of the uppercased input; every string whose
uppercased form is one of the recognized period codes returns the
corresponding human-readable name (in particular each table entry for
its own code, and `"b"` gives `"business day"`); and every string
whose uppercased form is not among the table's codes returns `none`
rather than an error (in particular `"xyz"`). -/
theorem get_freq_name_total_case_insensitive :
    (∀ s : String, get_freq_name s = get_freq_name (pyUpperStr s)) ∧
    (∀ e ∈ freqPeriods, get_freq_name e.1 = some e.2) ∧
    (∀ (s : String) (e : String × String), e ∈ freqPeriods →
      pyUpperStr s = e.1 → get_freq_name s = some e.2) ∧
    (∀ s : String, pyUpperStr s ∉ freqPeriods.map Prod.fst →
      get_freq_name s = none) ∧
    get_freq_name "b" = some "business day" ∧
    get_freq_name "xyz" = none := by
  refine ⟨fun s => ?_, by decide, fun s e he hup => ?_, fun s hnot => ?_,
    by decide, by decide⟩
  · unfold get_freq_name
    rw [pyUpperStr_idem]
  · have htab : ∀ e ∈ freqPeriods, List.lookup e.1 freqPeriods = some e.2 := by
      decide
    unfold get_freq_name
    rw [hup]
    exact htab e he
  · unfold get_freq_name
    exact lookup_eq_none_of_not_mem_keys (pyUpperStr s) freqPeriods hnot

/-- Claim C7: with `src_lo < src_hi`, `scale` maps the endpoints of the
source range to the endpoints of the destination range, clips values
outside the source range to the corresponding destination bound, and
maps in-range values by the linear formula
`dst_lo + (val - src_lo) / (src_hi - src_lo) * (dst_hi - dst_lo)`. -/
theorem scale_spec (val slo shi dlo dhi : ℚ) (hr : slo < shi) :
    scale slo (slo, shi) (dlo, dhi) = some dlo ∧
    scale shi (slo, shi) (dlo, dhi) = some dhi ∧
    (val < slo → scale val (slo, shi) (dlo, dhi) = some dlo) ∧
    (shi < val → scale val (slo, shi) (dlo, dhi) = some dhi) ∧
    (slo ≤ val → val ≤ shi →
      scale val (slo, shi) (dlo, dhi) =
        some ((val - slo) / (shi - slo) * (dhi - dlo) + dlo)) := by
  have hne : shi - slo ≠ 0 := sub_ne_zero.mpr (ne_of_gt hr)
  refine ⟨?_, ?_, ?_, ?_, ?_⟩
  · simp [scale, pyDivide, hne, not_lt_of_ge (le_refl slo), not_lt_of_ge (le_of_lt hr)]
  · simp [scale, pyDivide, hne, not_lt_of_ge (le_of_lt hr), div_self hne]
  · intro h; simp [scale, h]
  · intro h
    have h1 : ¬ val < slo := not_lt_of_ge (le_of_lt (lt_trans hr h))
    simp [scale, h, h1]
  · intro h1 h2
    simp [scale, pyDivide, hne, not_lt_of_ge h1, not_lt_of_ge h2]

/-- Witness for C7: the spec's own examples,
`scale(0, (0, 99), (-1, 1)) == -1` (left endpoint) and
`scale(-5, (0, 99), (-1, 1)) == -1` (clipped below). -/
theorem scale_spec_witness :
    scale 0 ((0 : ℚ), 99) ((-1 : ℚ), 1) = some (-1) ∧
    scale (-5) ((0 : ℚ), 99) ((-1 : ℚ), 1) = some (-1) := by
  constructor
  · exact (scale_spec 0 0 99 (-1) 1 (by norm_num)).1
  · exact (scale_spec (-5) 0 99 (-1) 1 (by norm_num)).2.2.1 (by norm_num)

/-- Claim C8: when the source bounds are equal and the value is not
clipped (it does not lie strictly outside the degenerate range, so the
division branch is reached), the unguarded division by zero makes
`scale` fail with a numeric error, modelled by `none`. -/
theorem scale_equal_bounds_error (val b dlo dhi : ℚ)
    (h1 : ¬ val < b) (h2 : ¬ b < val) :
    scale val (b, b) (dlo, dhi) = none := by
  simp [scale, pyDivide, h1, h2]

/-- Witness for C8: `scale(1, (1, 1), (0, 5))` divides by zero. -/
theorem scale_equal_bounds_error_witness :
    scale 1 ((1 : ℚ), 1) ((0 : ℚ), 5) = none :=
  scale_equal_bounds_error 1 1 0 5 (by norm_num) (by norm_num)

/-- Claim C9: for a source range with `src_lo ≤ src_hi` — including the
degenerate case `src_lo == src_hi` — every value strictly below the
source range yields `dst_lo` and every value strictly above yields
`dst_hi`, without any error: the clipping branches run before the
division, so the division is unreachable for out-of-range values. -/
theorem scale_clip_no_error (val slo shi dlo dhi : ℚ) (hr : slo ≤ shi) :
    (val < slo → scale val (slo, shi) (dlo, dhi) = some dlo) ∧
    (shi < val → scale val (slo, shi) (dlo, dhi) = some dhi) := by
  constructor
  · intro h; simp [scale, h]
  · intro h
    have h1 : ¬ val < slo := not_lt_of_ge (le_trans hr (le_of_lt h))
    simp [scale, h, h1]

/-- Witness for C9: with the degenerate source range `(1, 1)` both
out-of-range sides clip to a destination bound and no error occurs. -/
theorem scale_clip_no_error_witness :
    scale 2 ((1 : ℚ), 1) ((7 : ℚ), 9) = some 9 ∧
    scale 0 ((1 : ℚ), 1) ((7 : ℚ), 9) = some 7 := by
  constructor
  · exact (scale_clip_no_error 2 1 1 7 9 (le_refl 1)).2 (by norm_num)
  · exact (scale_clip_no_error 0 1 1 7 9 (le_refl 1)).1 (by norm_num)

/-- Claim C10: `as_format` returns `none` — no error and no formatted
structure — for every input that is neither a Series nor a DataFrame. -/
theorem as_format_other_none {L α : Type} (item : PdItem L α) (fmt : α → String)
    (h1 : ∀ lb d, item ≠ .series lb d) (h2 : ∀ rl cl d, item ≠ .frame rl cl d) :
    as_format item fmt = none := by
  cases item with
  | series lb d => exact absurd rfl (h1 lb d)
  | frame rl cl d => exact absurd rfl (h2 rl cl d)
  | other => rfl

/-- Witness for C10: a non-tabular input is formatted to `none`. -/
theorem as_format_other_none_witness :
    as_format (L := Unit) (α := ℚ) .other (fun _ => "x") = none :=
  as_format_other_none .other (fun _ => "x")
    (fun _ _ h => nomatch h) (fun _ _ _ h => nomatch h)
